import Mathlib

/-!
Verification development for the Billoir full vertex fitter
(`Core/include/Acts/Vertexing/FullBilloirVertexFitter.ipp`).

The fitter is shallowly embedded: `double` arithmetic is modelled exactly over
an ordered field `K` (instantiated with `ℚ` for concrete executions and with
`ℝ` for the trigonometric statements).  The constant `M_PI` of the source is a
parameter `pi : K`: concrete runs instantiate it with the exact rational value
of the double constant `M_PI`, while the angle/direction theorems instantiate
it with `Real.pi`, the idealization in which direction preservation is exact.

External collaborators (the linearized-track factory and the opaque input
track type) are inputs of `fit`, exactly as the spec's component model
describes them: `linearize` is the collaborator capability
`linearize(trackParams, referencePoint) -> LinearizedTrack` and `extract` is
`extractParameters`.
-/

namespace Billoir

variable {K : Type} [LinearOrderedField K] [FloorRing K] {α : Type}

/-- Truncation toward zero, as C's `fmod` performs on the quotient. -/
def rtrunc (x : K) : ℤ := if 0 ≤ x then ⌊x⌋ else ⌈x⌉

/-- Exact model of C's `std::fmod x y` (for `y > 0`):
`x - y * trunc (x / y)`; the result carries the sign of `x`. -/
def fmod (x y : K) : K := x - y * (rtrunc (x / y) : K)

/-- The azimuth reduction of source lines 230-236: `fmod` into `(−2π, 2π)`,
then fold the two open half-turns back by `∓2π`. -/
def wrapPhi (pi x : K) : K :=
  let tmpPhi0 := fmod x (2 * pi)
  let tmpPhi1 := if pi < tmpPhi0 then tmpPhi0 - 2 * pi else tmpPhi0
  if tmpPhi1 < -pi ∧ -(2 * pi) < tmpPhi1 then tmpPhi1 + 2 * pi else tmpPhi1

/-- The azimuth re-wrap ternary repeated on source lines 245 and 250:
`tmpPhi > M_PI ? tmpPhi - 2*M_PI : tmpPhi`. -/
def rewrapPhi (pi p : K) : K :=
  if pi < p then p - 2 * pi else p

/-- The 2π/π periodicity correction applied to the running momentum estimate
after every per-track update (source lines 229-254, transcribed branch by
branch; the azimuth pieces are `wrapPhi` and `rewrapPhi`).  `pi` stands for
the source's `M_PI`.  Returns the corrected (azimuth, polar angle) pair; the
charge-over-momentum component is untouched by the source code. -/
def normalizeAngles (pi : K) (phi theta : K) : K × K :=
  let tmpPhi2 := wrapPhi pi phi
  let tmpTht0 := fmod theta (2 * pi)
  let pt1 : K × K :=
    if tmpTht0 < -pi then
      (tmpPhi2, |tmpTht0 + 2 * pi|)
    else if tmpTht0 < 0 then
      (rewrapPhi pi (tmpPhi2 + pi), -tmpTht0)
    else
      (tmpPhi2, tmpTht0)
  if pi < pt1.2 then
    (rewrapPhi pi (pt1.1 + pi), 2 * pi - pt1.2)
  else
    pt1

/-- Minor of a square matrix obtained by deleting row `i` and column `j`. -/
def minorM {n : ℕ} (A : Matrix (Fin (n + 1)) (Fin (n + 1)) K) (i j : Fin (n + 1)) :
    Matrix (Fin n) (Fin n) K :=
  Matrix.of fun r c => A (i.succAbove r) (j.succAbove c)

/-- Determinant by Laplace expansion along the first row (executable, no
permutation enumeration). -/
def detL : {n : ℕ} → Matrix (Fin n) (Fin n) K → K
  | 0, _ => 1
  | n + 1, A => ∑ j : Fin (n + 1), (-1) ^ (j : ℕ) * A 0 j * detL (minorM A 0 j)

/-- Model of Eigen's unchecked `.inverse()` on a fixed-size matrix: the
adjugate (cofactor) formula `det⁻¹ · adj`.  On an invertible matrix this is
the true inverse, exactly what the double-precision code computes up to
rounding; on a singular matrix the field convention `0⁻¹ = 0` makes it the
zero matrix where the double code would produce non-finite entries — either
way the source performs no singularity check whatsoever. -/
def invL {n : ℕ} (A : Matrix (Fin (n + 1)) (Fin (n + 1)) K) :
    Matrix (Fin (n + 1)) (Fin (n + 1)) K :=
  Matrix.of fun i j => (detL A)⁻¹ * ((-1) ^ ((i : ℕ) + (j : ℕ)) * detL (minorM A j i))

/-- The output of the external track-linearization collaborator
(`Acts::LinearizedTrack`): parameters at the point of closest approach, the
5×3 position and momentum Jacobians, and the 5×5 parameter covariance. -/
structure LinearizedTrack (K : Type) where
  parametersAtPCA : Fin 5 → K
  positionJacobian : Matrix (Fin 5) (Fin 3) K
  momentumJacobian : Matrix (Fin 5) (Fin 3) K
  covarianceAtPCA : Matrix (Fin 5) (Fin 5) K

/-- The per-track cache `BilloirTrack` (source lines 20-41) together with the
two cached products `DtWmat`/`EtWmat` that the source keeps in loop locals
(lines 146-151). -/
structure BilloirTrackData (K α : Type) where
  originalTrack : α
  linTrack : LinearizedTrack K
  deltaQ : Fin 5 → K
  DiMat : Matrix (Fin 5) (Fin 3) K
  EiMat : Matrix (Fin 5) (Fin 3) K
  DtWmat : Matrix (Fin 3) (Fin 5) K
  EtWmat : Matrix (Fin 3) (Fin 5) K
  GiMat : Matrix (Fin 3) (Fin 3) K
  BiMat : Matrix (Fin 3) (Fin 3) K
  CiInv : Matrix (Fin 3) (Fin 3) K
  UiVec : Fin 3 → K
  BCiMat : Matrix (Fin 3) (Fin 3) K

/-- The per-iteration global sums `BilloirVertex` (source lines 46-56). -/
structure BilloirVertexData (K : Type) where
  Amat : Matrix (Fin 3) (Fin 3) K
  Tvec : Fin 3 → K
  BCBmat : Matrix (Fin 3) (Fin 3) K
  BCUvec : Fin 3 → K

/-- The inputs of one `fit` call: the linearization collaborator, the
parameter extractor (`extractParameters`), the ordered input tracks, and the
optional constraint's position and covariance (a default-constructed
`Vertex` argument carries the all-zero position and covariance). -/
structure FitInput (K α : Type) where
  linearize : (Fin 5 → K) → (Fin 3 → K) → LinearizedTrack K
  extract : α → Fin 5 → K
  tracks : List α
  constraintPos : Fin 3 → K
  constraintCov : Matrix (Fin 3) (Fin 3) K

/-- Body of the first per-track loop (source lines 109-181, minus the
accumulation): build one `BilloirTrack` cache entry from the collaborator's
linearization at the current linearization point and the track's running
momentum estimate `mom`. -/
def processTrack (inp : FitInput K α) (linPoint : Fin 3 → K) (mom : Fin 3 → K)
    (t : α) : BilloirTrackData K α :=
  let lt := inp.linearize (inp.extract t) linPoint
  let dq : Fin 5 → K :=
    ![lt.parametersAtPCA 0, lt.parametersAtPCA 1,
      lt.parametersAtPCA 2 - mom 0, lt.parametersAtPCA 3 - mom 1,
      lt.parametersAtPCA 4 - mom 2]
  let Dmat := lt.positionJacobian
  let Emat := lt.momentumJacobian
  let Wmat := invL lt.covarianceAtPCA
  let DtW := Dmat.transpose * Wmat
  let EtW := Emat.transpose * Wmat
  let Gmat := EtW * Emat
  let CiInv := invL Gmat
  let Bmat := DtW * Emat
  { originalTrack := t
    linTrack := lt
    deltaQ := dq
    DiMat := Dmat
    EiMat := Emat
    DtWmat := DtW
    EtWmat := EtW
    GiMat := Gmat
    BiMat := Bmat
    CiInv := CiInv
    UiVec := EtW.mulVec dq
    BCiMat := Bmat * CiInv }

/-- The accumulation statements of the first per-track loop (source lines
163-176). -/
def accumulate (acc : BilloirVertexData K) (bt : BilloirTrackData K α) :
    BilloirVertexData K :=
  { Amat := acc.Amat + bt.DtWmat * bt.DiMat
    Tvec := fun i => acc.Tvec i + (bt.DtWmat.mulVec bt.deltaQ) i
    BCBmat := acc.BCBmat + bt.BCiMat * bt.BiMat.transpose
    BCUvec := fun i => acc.BCUvec i + (bt.BCiMat.mulVec bt.UiVec) i }

/-- Freshly zeroed accumulator, as `BilloirVertex`'s default member
initializers produce. -/
def zeroAccum : BilloirVertexData K :=
  { Amat := 0, Tvec := fun _ => 0, BCBmat := 0, BCUvec := fun _ => 0 }

/-- The fixed 5×6 generalized-coordinate-to-track-parameter transformation
built entrywise in source lines 259-268 (`setZero` followed by eight
assignments: the 2×2 corner of the position Jacobian and four 1-entries). -/
def transMatOf (Dmat : Matrix (Fin 5) (Fin 3) K) : Matrix (Fin 5) (Fin 6) K :=
  !![Dmat 0 0, Dmat 0 1, 0, 0, 0, 0;
     Dmat 1 0, Dmat 1 1, 1, 0, 0, 0;
     0, 0, 0, 1, 0, 0;
     0, 0, 0, 0, 1, 0;
     0, 0, 0, 0, 0, 1]

/-- The 6×6 joint block covariance of source lines 287-292:
top-left `cov(V,V)`, top-right `cov(V,P)`, bottom-left its transpose,
bottom-right `cov(P,P)`. -/
def covMat6 (VVmat VPmat PPmat : Matrix (Fin 3) (Fin 3) K) :
    Matrix (Fin 6) (Fin 6) K :=
  Matrix.reindex finSumFinEquiv finSumFinEquiv
    (Matrix.fromBlocks VVmat VPmat VPmat.transpose PPmat)

/-- The 5×5 refitted-track covariance of source lines 256-296: assemble the
6×6 block matrix from `cov(V,V) = covDeltaV`, `cov(V,P) = -covDeltaV·G·C⁻¹`
and `cov(P,P) = C⁻¹ + BCᵀ·covDeltaV·BC`, then project through `transMat`. -/
def covDeltaPOf (bt : BilloirTrackData K α) (covDeltaV : Matrix (Fin 3) (Fin 3) K) :
    Matrix (Fin 5) (Fin 5) K :=
  let trans := transMatOf bt.DiMat
  let VVmat := covDeltaV
  let VPmat := -(covDeltaV * bt.GiMat * bt.CiInv)
  let PPmat := bt.CiInv + bt.BCiMat.transpose * covDeltaV * bt.BCiMat
  trans * covMat6 VVmat VPmat PPmat * trans.transpose

/-- Result of the second per-track loop body (source lines 219-307) for one
track: the momentum correction, the updated (angle-normalized) running
momentum estimate, the refit covariance and the track's chi-square. -/
structure TrackPhase2 (K α : Type) where
  bt : BilloirTrackData K α
  deltaP : Fin 3 → K
  newMom : Fin 3 → K
  covDeltaP : Matrix (Fin 5) (Fin 5) K
  chi2 : K

/-- Body of the second per-track loop (source lines 219-307). -/
def processPhase2 (pi : K) (deltaV : Fin 3 → K) (covDeltaV : Matrix (Fin 3) (Fin 3) K)
    (mom : Fin 3 → K) (bt : BilloirTrackData K α) : TrackPhase2 K α :=
  let deltaP := bt.CiInv.mulVec (fun i => bt.UiVec i - (bt.BiMat.transpose.mulVec deltaV) i)
  let m0 : Fin 3 → K := fun i => mom i + deltaP i
  let phiTht := normalizeAngles pi (m0 0) (m0 1)
  let resid : Fin 5 → K :=
    fun i => bt.deltaQ i - (bt.DiMat.mulVec deltaV) i - (bt.EiMat.mulVec deltaP) i
  { bt := bt
    deltaP := deltaP
    newMom := ![phiTht.1, phiTht.2, m0 2]
    covDeltaP := covDeltaPOf bt covDeltaV
    chi2 := Matrix.dotProduct resid ((invL bt.linTrack.covarianceAtPCA).mulVec resid) }

/-- Everything one loop iteration (source lines 101-323) computes. -/
structure IterResult (K α : Type) where
  btracks : List (BilloirTrackData K α)
  phase2 : List (TrackPhase2 K α)
  deltaV : Fin 3 → K
  covDeltaV : Matrix (Fin 3) (Fin 3) K
  newChi2 : K
  newLinPoint : Fin 3 → K

/-- One full iteration of the fit loop: linearize and cache every track,
accumulate, solve the reduced normal equations (folding in the constraint
when its covariance has nonzero trace), update the per-track momenta, and
score the iteration (source lines 101-323). -/
def iterateOnce (pi : K) (inp : FitInput K α) (momenta : List (Fin 3 → K))
    (linPoint : Fin 3 → K) : IterResult K α :=
  let bts := (inp.tracks.zip momenta).map fun p => processTrack inp linPoint p.2 p.1
  let acc := bts.foldl accumulate zeroAccum
  let isConstraintFit := inp.constraintCov.trace ≠ 0
  let cInv := invL inp.constraintCov
  let offset : Fin 3 → K := fun i => inp.constraintPos i - linPoint i
  let Vdel : Fin 3 → K :=
    if isConstraintFit then
      fun i => (acc.Tvec i - acc.BCUvec i) + (cInv.mulVec offset) i
    else fun i => acc.Tvec i - acc.BCUvec i
  let VwgtMat :=
    if isConstraintFit then acc.Amat - acc.BCBmat + cInv
    else acc.Amat - acc.BCBmat
  let covDeltaV := invL VwgtMat
  let deltaV := covDeltaV.mulVec Vdel
  let p2 := (bts.zip momenta).map fun p => processPhase2 pi deltaV covDeltaV p.2 p.1
  let chiTracks := p2.foldl (fun a p => a + p.chi2) 0
  let deltaTrk : Fin 3 → K := fun i => deltaV i - offset i
  let newChi2 :=
    if isConstraintFit then
      chiTracks + Matrix.dotProduct deltaTrk (cInv.mulVec deltaTrk)
    else chiTracks
  { btracks := bts
    phase2 := p2
    deltaV := deltaV
    covDeltaV := covDeltaV
    newChi2 := newChi2
    newLinPoint := fun i => linPoint i + deltaV i }

/-- One per-track refit entry (`TrackAtVertex`): the track's chi-square, the
refitted bound parameters (parameter vector and covariance) on a perigee
surface centered at the fitted vertex, and the original input track. -/
structure TrackAtVertexData (K α : Type) where
  chi2 : K
  paramVec : Fin 5 → K
  covDeltaP : Matrix (Fin 5) (Fin 5) K
  surfaceCenter : Fin 3 → K
  originalTrack : α

/-- The output entity `Vertex<InputTrack>`: position, covariance, fit quality
(chi-square and degrees of freedom) and the per-track refit list. -/
structure VertexData (K α : Type) where
  position : Fin 3 → K
  covariance : Matrix (Fin 3) (Fin 3) K
  chi2 : K
  ndf : ℤ
  tracksAtVertex : List (TrackAtVertexData K α)

/-- Modelled from the spec: the `Vertex` class itself is not under `src/`;
per the spec the zero-track return `Vertex(Vector3D(0,0,0))` and the
default-constructed `Vertex` are the origin position with default (zero)
covariance and no refit entries. -/
def originVertex : VertexData K α :=
  { position := fun _ => 0, covariance := 0, chi2 := 0, ndf := 0, tracksAtVertex := [] }

/-- Materialization of the fitted vertex on an improving iteration (source
lines 324-355): position is the freshly advanced linearization point,
covariance is this iteration's `covDeltaV`, fit quality is the new best
chi-square with `ndf`, and each refit entry pairs the track's chi-square with
parameters `(0, 0, phi, theta, qOverP)` on a perigee surface at the fitted
position. -/
def materializeVertex (ndf : ℤ) (r : IterResult K α) : VertexData K α :=
  { position := r.newLinPoint
    covariance := r.covDeltaV
    chi2 := r.newChi2
    ndf := ndf
    tracksAtVertex := r.phase2.map fun p =>
      { chi2 := p.chi2
        paramVec := ![0, 0, p.newMom 0, p.newMom 1, p.newMom 2]
        covDeltaP := p.covDeltaP
        surfaceCenter := r.newLinPoint
        originalTrack := p.bt.originalTrack } }

/-- Degrees of freedom (source lines 75-86): `2·n − 3`, overwritten with `1`
when `n < 2`, plus `3` exactly when the constraint covariance has nonzero
trace. -/
def ndfOf (n : ℕ) (ccov : Matrix (Fin 3) (Fin 3) K) : ℤ :=
  let base : ℤ := if n < 2 then 1 else 2 * (n : ℤ) - 3
  if ccov.trace ≠ 0 then base + 3 else base

/-- The exact value of `std::numeric_limits<double>::max()`,
`(2^53 − 1) · 2^971`, with which the source initializes the best chi-square
(source line 67). -/
def dblMax : K := (2 ^ 53 - 1) * 2 ^ 971

/-- The mutable state of one `fit` call that survives from one iteration to
the next: the running momentum estimates, the linearization point, the best
chi-square seen so far and the best (materialized) vertex. -/
structure FitState (K α : Type) where
  trackMomenta : List (Fin 3 → K)
  linPoint : Fin 3 → K
  chi2 : K
  fittedVertex : VertexData K α

/-- Initial state: momenta from each track's own (phi, theta, qOverP)
parameters (the source fills `trackMomenta` on the first iteration before any
use, which is equivalent), linearization point at the constraint position
(source line 97), best chi-square at `DBL_MAX`, vertex default-constructed. -/
def initState (inp : FitInput K α) : FitState K α :=
  { trackMomenta := inp.tracks.map fun t => ![inp.extract t 2, inp.extract t 3, inp.extract t 4]
    linPoint := inp.constraintPos
    chi2 := dblMax
    fittedVertex := originVertex }

/-- One trip around the iteration loop: run the iteration, unconditionally
adopt the new momenta and linearization point, and keep the vertex and best
chi-square only on strict improvement (source lines 101-356). -/
def stepState (pi : K) (inp : FitInput K α) (s : FitState K α) : FitState K α :=
  let r := iterateOnce pi inp s.trackMomenta s.linPoint
  { trackMomenta := r.phase2.map TrackPhase2.newMom
    linPoint := r.newLinPoint
    chi2 := if r.newChi2 < s.chi2 then r.newChi2 else s.chi2
    fittedVertex := if r.newChi2 < s.chi2 then
        materializeVertex (ndfOf inp.tracks.length inp.constraintCov) r
      else s.fittedVertex }

/-- The iteration loop, run for its full budget. -/
def runIters (pi : K) (inp : FitInput K α) : ℕ → FitState K α → FitState K α
  | 0, s => s
  | n + 1, s => runIters pi inp n (stepState pi inp s)

/-- The per-iteration total chi-squares, in iteration order: one entry per
executed loop body. -/
def chi2Trace (pi : K) (inp : FitInput K α) : ℕ → FitState K α → List K
  | 0, _ => []
  | n + 1, s =>
    (iterateOnce pi inp s.trackMomenta s.linPoint).newChi2 :: chi2Trace pi inp n (stepState pi inp s)

/-- `FullBilloirVertexFitter::fit` (source lines 60-358): zero tracks return
the origin vertex with no iteration; otherwise the loop runs exactly
`maxIterations` times and the last materialized vertex (or the default if
none) is returned. -/
def fit (pi : K) (maxIterations : ℕ) (inp : FitInput K α) : VertexData K α :=
  if inp.tracks.length = 0 then originVertex
  else (runIters pi inp maxIterations (initState inp)).fittedVertex

/-- Modelled from the spec: the 5×6 transformation as the spec sentence
describes it — "the transformation's nonzero entries come from the position
Jacobian's first two rows/columns plus THREE fixed 1-entries for the momentum
parameters".  To be compared against `transMatOf`, the transcription of the
source. -/
def specTransMat (Dmat : Matrix (Fin 5) (Fin 3) K) : Matrix (Fin 5) (Fin 6) K :=
  !![Dmat 0 0, Dmat 0 1, 0, 0, 0, 0;
     Dmat 1 0, Dmat 1 1, 0, 0, 0, 0;
     0, 0, 0, 1, 0, 0;
     0, 0, 0, 0, 1, 0;
     0, 0, 0, 0, 0, 1]

/-- The exact rational value of the double constant `M_PI`
(`884279719003555 / 2^48`), used to instantiate the `pi` parameter in
concrete runs. -/
def ratMPI : ℚ := (884279719003555 : ℚ) / 281474976710656

/-- A mock collaborator output with zero parameters and Jacobians and identity
covariance: the fully degenerate linearization on which every stage of the fit
pipeline collapses to zero (and whose `G = EᵀWE` is the zero matrix — a
singular matrix the source inverts without any check). -/
def zTrk : LinearizedTrack K :=
  { parametersAtPCA := fun _ => 0
    positionJacobian := 0
    momentumJacobian := 0
    covarianceAtPCA := 1 }

/-- Two-track concrete input built from `zTrk`, with an active constraint
(identity covariance, trace `3 ≠ 0`) at the origin. -/
def zInp : FitInput K Unit :=
  { linearize := fun _ _ => zTrk
    extract := fun _ _ => 0
    tracks := [(), ()]
    constraintPos := fun _ => 0
    constraintCov := 1 }

/-- A nonzero constraint covariance whose trace is exactly zero. -/
def ccovTraceZero : Matrix (Fin 3) (Fin 3) K :=
  !![1, 0, 0; 0, -1, 0; 0, 0, 0]

/-- `zInp` with the trace-zero constraint covariance `ccovTraceZero`. -/
def zInpT0 : FitInput K Unit :=
  { linearize := fun _ _ => zTrk
    extract := fun _ _ => 0
    tracks := [(), ()]
    constraintPos := fun _ => 0
    constraintCov := ccovTraceZero }

/-! Basic arithmetic and matrix lemmas. -/

theorem detL_zeroMat (n : ℕ) : detL (0 : Matrix (Fin (n + 1)) (Fin (n + 1)) K) = 0 := by
  simp [detL]

theorem invL_zeroMat (n : ℕ) : invL (0 : Matrix (Fin (n + 1)) (Fin (n + 1)) K) = 0 := by
  ext i j
  simp [invL, detL_zeroMat]

theorem dblMax_pos : (0 : K) < dblMax := by
  have h1 : (1 : K) < 2 ^ 53 := one_lt_pow₀ one_lt_two (by norm_num)
  have h2 : (0 : K) < 2 ^ 971 := pow_pos two_pos _
  exact mul_pos (sub_pos.2 h1) h2

theorem rtrunc_zero : rtrunc (0 : K) = 0 := by simp [rtrunc]

theorem fmod_zero_left (y : K) : fmod 0 y = 0 := by
  simp [fmod, rtrunc]

theorem fmod_bounds_nonneg {x y : K} (hy : 0 < y) (hx : 0 ≤ x) :
    0 ≤ fmod x y ∧ fmod x y < y := by
  have hq : (0 : K) ≤ x / y := div_nonneg hx hy.le
  have hr : rtrunc (x / y) = ⌊x / y⌋ := if_pos hq
  have hx2 : x = y * (x / y) := (mul_div_cancel₀ x hy.ne').symm
  have hfr : fmod x y = y * Int.fract (x / y) := by
    rw [fmod, hr, Int.fract]
    rw [mul_sub]
    rw [← hx2]
  constructor
  · rw [hfr]; exact mul_nonneg hy.le (Int.fract_nonneg _)
  · rw [hfr]
    calc y * Int.fract (x / y) < y * 1 :=
          (mul_lt_mul_left hy).2 (Int.fract_lt_one _)
      _ = y := mul_one y

theorem fmod_bounds_neg {x y : K} (hy : 0 < y) (hx : x < 0) :
    -y < fmod x y ∧ fmod x y ≤ 0 := by
  have hq : x / y < 0 := div_neg_of_neg_of_pos hx hy
  have hr : rtrunc (x / y) = ⌈x / y⌉ := if_neg (not_le.2 hq)
  have hx2 : x = y * (x / y) := (mul_div_cancel₀ x hy.ne').symm
  have hfr : fmod x y = y * (x / y - ⌈x / y⌉) := by
    rw [fmod, hr, mul_sub, ← hx2]
  constructor
  · rw [hfr]
    have h1 : (-1 : K) < x / y - ⌈x / y⌉ := by
      have := Int.ceil_lt_add_one (x / y)
      linarith
    calc -y = y * (-1) := by ring
      _ < y * (x / y - ⌈x / y⌉) := (mul_lt_mul_left hy).2 h1
  · rw [hfr]
    have h1 : x / y - ⌈x / y⌉ ≤ 0 := sub_nonpos.2 (Int.le_ceil _)
    exact mul_nonpos_of_nonneg_of_nonpos hy.le h1

theorem normalizeAngles_zero {pi : K} (hpi : 0 < pi) :
    normalizeAngles pi 0 0 = (0, 0) := by
  have h1 : ¬ pi < (0 : K) := not_lt.2 hpi.le
  have h2 : ¬ (0 : K) < -pi := by simp [hpi.le]
  have h3 : ¬ (0 : K) < 0 := lt_irrefl 0
  simp [normalizeAngles, wrapPhi, rewrapPhi, fmod_zero_left, h1, h2, h3,
    not_lt.2 hpi.le, lt_irrefl, hpi.not_lt]

/-! `List.foldl` lemmas for the running minimum and the chi-square sum. -/

theorem foldl_min_le_init (l : List K) (a : K) : l.foldl min a ≤ a := by
  induction l generalizing a with
  | nil => exact le_refl a
  | cons b l ih =>
    calc (b :: l).foldl min a = l.foldl min (min a b) := by rw [List.foldl_cons]
      _ ≤ min a b := ih _
      _ ≤ a := min_le_left _ _

theorem foldl_min_le_mem {l : List K} {c : K} (h : c ∈ l) (a : K) :
    l.foldl min a ≤ c := by
  induction l generalizing a with
  | nil => cases h
  | cons b l ih =>
    rw [List.foldl_cons]
    rcases List.mem_cons.1 h with hc | hc
    · subst hc
      calc l.foldl min (min a c) ≤ min a c := foldl_min_le_init _ _
        _ ≤ c := min_le_right _ _
    · exact ih hc _

theorem foldl_min_cases (l : List K) (a : K) :
    l.foldl min a = a ∨ l.foldl min a ∈ l := by
  induction l generalizing a with
  | nil => exact Or.inl rfl
  | cons b l ih =>
    rw [List.foldl_cons]
    rcases ih (min a b) with h | h
    · rcases le_total a b with hab | hab
      · exact Or.inl (h.trans (min_eq_left hab))
      · refine Or.inr ?_
        rw [h, min_eq_right hab]
        exact List.mem_cons_self b l
    · exact Or.inr (List.mem_cons_of_mem _ h)

theorem foldl_add_eq_sum {β : Type} (f : β → K) (l : List β) (c : K) :
    l.foldl (fun a p => a + f p) c = c + (l.map f).sum := by
  induction l generalizing c with
  | nil => simp
  | cons b l ih =>
    rw [List.foldl_cons, ih, List.map_cons, List.sum_cons]
    ring

/-! Collapse lemmas for the degenerate input `zInp`. -/

theorem funZero3 : (fun _ : Fin 3 => (0 : K)) = 0 := rfl

theorem funZero5 : (fun _ : Fin 5 => (0 : K)) = 0 := rfl

theorem vec3_zero : (![(0 : K), 0, 0]) = 0 := by
  funext i; fin_cases i <;> rfl

theorem vec5_zero : (![(0 : K), 0, 0, 0, 0]) = 0 := by
  funext i; fin_cases i <;> rfl

theorem trace_ccovTraceZero : (ccovTraceZero (K := K)).trace = 0 := by
  simp [ccovTraceZero, Matrix.trace, Matrix.diag, Fin.sum_univ_succ]

theorem processTrack_z (lp mom : Fin 3 → K) :
    (processTrack (zInp (K := K)) lp mom ()).GiMat = 0
    ∧ (processTrack (zInp (K := K)) lp mom ()).CiInv = 0 := by
  refine ⟨?_, ?_⟩ <;>
    simp [processTrack, zInp, zTrk, invL_zeroMat, Matrix.transpose_zero,
      Matrix.zero_mul, Matrix.mul_zero]

theorem zIter (pi : K) (hpi : 0 < pi) (m1 m2 lp : Fin 3 → K)
    (hm1 : m1 = 0) (hm2 : m2 = 0) (hlp : lp = 0) :
    (iterateOnce pi (zInp (K := K)) [m1, m2] lp).newChi2 = 0
    ∧ (iterateOnce pi (zInp (K := K)) [m1, m2] lp).newLinPoint = 0
    ∧ (iterateOnce pi (zInp (K := K)) [m1, m2] lp).phase2.map TrackPhase2.newMom = [0, 0]
    ∧ (iterateOnce pi (zInp (K := K)) [m1, m2] lp).phase2.length = 2 := by
  subst hm1; subst hm2; subst hlp
  refine ⟨?_, ?_, ?_, ?_⟩ <;>
    simp [iterateOnce, processTrack, processPhase2, accumulate, zeroAccum,
      zInp, zTrk, invL_zeroMat, Matrix.transpose_zero, Matrix.zero_mul,
      Matrix.mul_zero, Matrix.zero_mulVec, Matrix.mulVec_zero,
      Matrix.trace_one, normalizeAngles_zero hpi, vec3_zero, vec5_zero,
      funZero3, funZero5, Matrix.zero_dotProduct, Matrix.dotProduct_zero]

/-! Structural lemmas about the iteration loop. -/

theorem stepState_trackMomenta (pi : K) (inp : FitInput K α) (s : FitState K α) :
    (stepState pi inp s).trackMomenta
      = (iterateOnce pi inp s.trackMomenta s.linPoint).phase2.map TrackPhase2.newMom := rfl

theorem stepState_linPoint (pi : K) (inp : FitInput K α) (s : FitState K α) :
    (stepState pi inp s).linPoint
      = (iterateOnce pi inp s.trackMomenta s.linPoint).newLinPoint := rfl

theorem stepState_chi2 (pi : K) (inp : FitInput K α) (s : FitState K α) :
    (stepState pi inp s).chi2
      = if (iterateOnce pi inp s.trackMomenta s.linPoint).newChi2 < s.chi2
        then (iterateOnce pi inp s.trackMomenta s.linPoint).newChi2 else s.chi2 := rfl

theorem stepState_vertex (pi : K) (inp : FitInput K α) (s : FitState K α) :
    (stepState pi inp s).fittedVertex
      = if (iterateOnce pi inp s.trackMomenta s.linPoint).newChi2 < s.chi2
        then materializeVertex (ndfOf inp.tracks.length inp.constraintCov)
              (iterateOnce pi inp s.trackMomenta s.linPoint)
        else s.fittedVertex := rfl

theorem runIters_zero (pi : K) (inp : FitInput K α) (s : FitState K α) :
    runIters pi inp 0 s = s := rfl

theorem runIters_succ (pi : K) (inp : FitInput K α) (n : ℕ) (s : FitState K α) :
    runIters pi inp (n + 1) s = runIters pi inp n (stepState pi inp s) := rfl

theorem chi2Trace_succ (pi : K) (inp : FitInput K α) (n : ℕ) (s : FitState K α) :
    chi2Trace pi inp (n + 1) s
      = (iterateOnce pi inp s.trackMomenta s.linPoint).newChi2
        :: chi2Trace pi inp n (stepState pi inp s) := rfl

theorem chi2Trace_length (pi : K) (inp : FitInput K α) :
    ∀ (n : ℕ) (s : FitState K α), (chi2Trace pi inp n s).length = n := by
  intro n
  induction n with
  | zero => intro s; rfl
  | succ n ih =>
    intro s
    rw [chi2Trace_succ, List.length_cons, ih]

theorem step_chi2_min (pi : K) (inp : FitInput K α) (s : FitState K α) :
    (stepState pi inp s).chi2
      = min s.chi2 (iterateOnce pi inp s.trackMomenta s.linPoint).newChi2 := by
  rw [stepState_chi2]
  rcases lt_or_le (iterateOnce pi inp s.trackMomenta s.linPoint).newChi2 s.chi2 with h | h
  · rw [if_pos h, min_eq_right h.le]
  · rw [if_neg (not_lt.2 h), min_eq_left h]

theorem runIters_chi2_foldl (pi : K) (inp : FitInput K α) :
    ∀ (n : ℕ) (s : FitState K α),
      (runIters pi inp n s).chi2 = (chi2Trace pi inp n s).foldl min s.chi2 := by
  intro n
  induction n with
  | zero => intro s; rfl
  | succ n ih =>
    intro s
    rw [runIters_succ, chi2Trace_succ, List.foldl_cons, ih, step_chi2_min]

theorem runIters_vertex_cases (pi : K) (inp : FitInput K α) :
    ∀ (n : ℕ) (s : FitState K α),
      ((runIters pi inp n s).fittedVertex = s.fittedVertex
        ∧ (runIters pi inp n s).chi2 = s.chi2)
      ∨ ∃ k, k < n
          ∧ (iterateOnce pi inp (runIters pi inp k s).trackMomenta
              (runIters pi inp k s).linPoint).newChi2 < (runIters pi inp k s).chi2
          ∧ (runIters pi inp n s).fittedVertex
              = materializeVertex (ndfOf inp.tracks.length inp.constraintCov)
                  (iterateOnce pi inp (runIters pi inp k s).trackMomenta
                    (runIters pi inp k s).linPoint)
          ∧ (runIters pi inp n s).chi2
              = (iterateOnce pi inp (runIters pi inp k s).trackMomenta
                  (runIters pi inp k s).linPoint).newChi2 := by
  intro n
  induction n with
  | zero => intro s; exact Or.inl ⟨rfl, rfl⟩
  | succ n ih =>
    intro s
    rcases ih (stepState pi inp s) with ⟨hv, hc⟩ | ⟨k, hk, himp, hv, hc⟩
    · rw [runIters_succ] at *
      by_cases h0 : (iterateOnce pi inp s.trackMomenta s.linPoint).newChi2 < s.chi2
      · refine Or.inr ⟨0, n.succ_pos, ?_, ?_, ?_⟩
        · exact h0
        · rw [hv, stepState_vertex, if_pos h0]; rfl
        · rw [hc, stepState_chi2, if_pos h0]; rfl
      · refine Or.inl ⟨?_, ?_⟩
        · rw [hv, stepState_vertex, if_neg h0]
        · rw [hc, stepState_chi2, if_neg h0]
    · refine Or.inr ⟨k + 1, Nat.succ_lt_succ hk, ?_, ?_, ?_⟩
      · exact himp
      · rw [runIters_succ]; exact hv
      · rw [runIters_succ]; exact hc

/-- If some iteration's chi-square beats `DBL_MAX`, the returned vertex is the
materialization of the iteration whose chi-square is the running minimum. -/
theorem fit_materialized (pi : K) (inp : FitInput K α) (maxIter : ℕ)
    (hne : inp.tracks ≠ [])
    (himp : ∃ c ∈ chi2Trace pi inp maxIter (initState inp), c < dblMax) :
    ∃ k, k < maxIter
      ∧ (iterateOnce pi inp (runIters pi inp k (initState inp)).trackMomenta
          (runIters pi inp k (initState inp)).linPoint).newChi2
          < (runIters pi inp k (initState inp)).chi2
      ∧ fit pi maxIter inp
          = materializeVertex (ndfOf inp.tracks.length inp.constraintCov)
              (iterateOnce pi inp (runIters pi inp k (initState inp)).trackMomenta
                (runIters pi inp k (initState inp)).linPoint)
      ∧ (fit pi maxIter inp).chi2
          = (chi2Trace pi inp maxIter (initState inp)).foldl min dblMax := by
  have hlen : ¬ inp.tracks.length = 0 := by
    intro h
    exact hne (List.length_eq_zero.1 h)
  have hfit : fit pi maxIter inp
      = (runIters pi inp maxIter (initState inp)).fittedVertex := by
    rw [fit, if_neg hlen]
  obtain ⟨c, hcmem, hclt⟩ := himp
  have hchis : (runIters pi inp maxIter (initState inp)).chi2
      = (chi2Trace pi inp maxIter (initState inp)).foldl min dblMax :=
    runIters_chi2_foldl pi inp maxIter (initState inp)
  have hlt : (runIters pi inp maxIter (initState inp)).chi2 < dblMax := by
    rw [hchis]
    exact lt_of_le_of_lt (foldl_min_le_mem hcmem dblMax) hclt
  rcases runIters_vertex_cases pi inp maxIter (initState inp) with ⟨_, hc⟩ | ⟨k, hk, himp2, hv, hc⟩
  · rw [hc] at hlt
    exact absurd hlt (lt_irrefl dblMax)
  · refine ⟨k, hk, himp2, ?_, ?_⟩
    · rw [hfit, hv]
    · rw [hfit]
      have : (materializeVertex (ndfOf inp.tracks.length inp.constraintCov)
          (iterateOnce pi inp (runIters pi inp k (initState inp)).trackMomenta
            (runIters pi inp k (initState inp)).linPoint)).chi2
          = (iterateOnce pi inp (runIters pi inp k (initState inp)).trackMomenta
              (runIters pi inp k (initState inp)).linPoint).newChi2 := rfl
      rw [hv, this, ← hc, hchis]

/-- Concrete run of the fit on the degenerate input `zInp` with an iteration
budget of 2: every iteration scores chi-square `0`, the first materializes the
vertex, and the second is discarded by the keep-best comparison. -/
theorem zFit (pi : K) (hpi : 0 < pi) :
    chi2Trace pi (zInp (K := K)) 2 (initState zInp) = [0, 0]
    ∧ (fit pi 2 (zInp (K := K))).chi2 = 0
    ∧ (fit pi 2 (zInp (K := K))).ndf = 4
    ∧ (fit pi 2 (zInp (K := K))).tracksAtVertex.length = 2 := by
  have h0 := zIter pi hpi 0 0 0 rfl rfl rfl
  have hs0m : (initState (zInp (K := K))).trackMomenta = [0, 0] := by
    simp [initState, zInp, vec3_zero]
  have hs0l : (initState (zInp (K := K))).linPoint = 0 := rfl
  have hs0c : (initState (zInp (K := K))).chi2 = dblMax := rfl
  have hA : (stepState pi (zInp (K := K)) (initState zInp)).trackMomenta = [0, 0] := by
    rw [stepState_trackMomenta, hs0m, hs0l]
    exact h0.2.2.1
  have hB : (stepState pi (zInp (K := K)) (initState zInp)).linPoint = 0 := by
    rw [stepState_linPoint, hs0m, hs0l]
    exact h0.2.1
  have hC : (stepState pi (zInp (K := K)) (initState zInp)).chi2 = 0 := by
    rw [stepState_chi2, hs0m, hs0l, h0.1, hs0c, if_pos dblMax_pos]
  have htr : chi2Trace pi (zInp (K := K)) 2 (initState zInp) = [0, 0] := by
    rw [chi2Trace_succ, chi2Trace_succ, hs0m, hs0l, h0.1, hA, hB, h0.1]
    rfl
  have hD : (stepState pi (zInp (K := K)) (initState zInp)).fittedVertex
      = materializeVertex (ndfOf (zInp (K := K)).tracks.length (zInp (K := K)).constraintCov)
          (iterateOnce pi (zInp (K := K)) [0, 0] 0) := by
    rw [stepState_vertex, hs0m, hs0l, h0.1, hs0c, if_pos dblMax_pos]
  have hfit : fit pi 2 (zInp (K := K))
      = (stepState pi zInp (stepState pi zInp (initState zInp))).fittedVertex := by
    rw [fit, if_neg (by simp [zInp])]
    rfl
  have hE : (stepState pi (zInp (K := K)) (stepState pi zInp (initState zInp))).fittedVertex
      = materializeVertex (ndfOf (zInp (K := K)).tracks.length (zInp (K := K)).constraintCov)
          (iterateOnce pi (zInp (K := K)) [0, 0] 0) := by
    rw [stepState_vertex, hA, hB, h0.1, hC, if_neg (lt_irrefl 0), hD]
  have hndf : ndfOf (zInp (K := K)).tracks.length (zInp (K := K)).constraintCov = 4 := by
    norm_num [ndfOf, zInp, Matrix.trace_one]
  refine ⟨htr, ?_, ?_, ?_⟩
  · rw [hfit, hE]
    exact h0.1
  · rw [hfit, hE, ← hndf]
    rfl
  · rw [hfit, hE]
    show ((iterateOnce pi (zInp (K := K)) [0, 0] 0).phase2.map _).length = 2
    rw [List.length_map]
    exact h0.2.2.2

/-! The claims. -/

/-- Claim C5: on zero input tracks `fit` performs no iteration — the result is
independent of the iteration budget and of the collaborator — and returns the
origin vertex with zero covariance, zero chi-square, and an empty per-track
refit list; this is a normal return, not an error. -/
theorem emptyInput_returns_origin (pi : K) (maxIterations : ℕ)
    (linearize : (Fin 5 → K) → (Fin 3 → K) → LinearizedTrack K)
    (extract : α → Fin 5 → K) (cpos : Fin 3 → K) (ccov : Matrix (Fin 3) (Fin 3) K) :
    fit pi maxIterations
        { linearize := linearize, extract := extract, tracks := [],
          constraintPos := cpos, constraintCov := ccov } = originVertex
    ∧ (originVertex : VertexData K α).position = 0
    ∧ (originVertex : VertexData K α).covariance = 0
    ∧ (originVertex : VertexData K α).tracksAtVertex = [] :=
  ⟨rfl, rfl, rfl, rfl⟩

/-- Claim C6: on a non-empty track list the loop runs exactly `maxIterations`
iterations — the chi-square trace has one entry per executed loop body, of
length exactly `maxIterations`, and the result is the state reached after
folding the (total, structurally recursive) step function that many times;
there is no early-exit path. -/
theorem loop_runs_full_budget (pi : K) (inp : FitInput K α) (maxIterations : ℕ)
    (hne : inp.tracks ≠ []) :
    fit pi maxIterations inp
      = (runIters pi inp maxIterations (initState inp)).fittedVertex
    ∧ (chi2Trace pi inp maxIterations (initState inp)).length = maxIterations := by
  constructor
  · rw [fit, if_neg (fun h => hne (List.length_eq_zero.1 h))]
  · exact chi2Trace_length pi inp maxIterations (initState inp)

/-- Witness for C6 at the concrete input `zInp`. -/
theorem loop_runs_full_budget_witness :
    fit ratMPI 2 (zInp (K := ℚ))
      = (runIters ratMPI zInp 2 (initState zInp)).fittedVertex
    ∧ (chi2Trace ratMPI (zInp (K := ℚ)) 2 (initState zInp)).length = 2 :=
  loop_runs_full_budget ratMPI zInp 2 (by simp [zInp])

/-- Claim C4: whenever the vertex is materialized, the degrees of freedom
reported in its fit quality are `2·n − 3` for `n ≥ 2` tracks and `1`
otherwise, plus exactly `3` when the constraint covariance has nonzero
trace. -/
theorem ndf_formula_reported (pi : K) (inp : FitInput K α) (maxIterations : ℕ)
    (hne : inp.tracks ≠ [])
    (himp : ∃ c ∈ chi2Trace pi inp maxIterations (initState inp), c < dblMax) :
    (fit pi maxIterations inp).ndf = ndfOf inp.tracks.length inp.constraintCov
    ∧ ndfOf inp.tracks.length inp.constraintCov
        = (if 2 ≤ inp.tracks.length then 2 * (inp.tracks.length : ℤ) - 3 else 1)
          + (if inp.constraintCov.trace ≠ 0 then 3 else 0) := by
  constructor
  · obtain ⟨k, hk, himp2, hv, hc⟩ := fit_materialized pi inp maxIterations hne himp
    rw [hv]
    rfl
  · by_cases ht : inp.constraintCov.trace ≠ 0
    · rcases lt_or_le inp.tracks.length 2 with h | h
      · simp [ndfOf, ht, h, not_le.2 h]
      · simp [ndfOf, ht, not_lt.2 h, h]
    · rcases lt_or_le inp.tracks.length 2 with h | h
      · simp [ndfOf, ht, h, not_le.2 h]
      · simp [ndfOf, ht, not_lt.2 h, h]

/-- Witness for C4 at the concrete input `zInp` (two tracks, active identity
constraint: the reported ndf is `2·2 − 3 + 3 = 4`). -/
theorem ndf_formula_reported_witness :
    (fit ratMPI 2 (zInp (K := ℚ))).ndf
      = ndfOf (zInp (K := ℚ)).tracks.length (zInp (K := ℚ)).constraintCov
    ∧ ndfOf (zInp (K := ℚ)).tracks.length (zInp (K := ℚ)).constraintCov
        = (if 2 ≤ (zInp (K := ℚ)).tracks.length then 2 * ((zInp (K := ℚ)).tracks.length : ℤ) - 3 else 1)
          + (if (zInp (K := ℚ)).constraintCov.trace ≠ 0 then 3 else 0) :=
  ndf_formula_reported ratMPI zInp 2 (by simp [zInp])
    (by
      rw [(zFit ratMPI (by norm_num [ratMPI])).1]
      exact ⟨0, by simp, dblMax_pos⟩)

/-- Claim C1: keep-best policy.  The best chi-square starts at the `DBL_MAX`
sentinel; provided every iteration's total chi-square stays below it (so the
sentinel acts as "+infinity"), the returned vertex's chi-square is the minimum
of the per-iteration chi-squares — an element of the trace that bounds every
other entry from below — and not (in general) the last one; meanwhile the
running momentum estimates and the linearization point are updated by every
iteration unconditionally, improving or not. -/
theorem keepBest_policy (pi : K) (inp : FitInput K α) (maxIterations : ℕ)
    (hne : inp.tracks ≠ [])
    (hpos : 0 < maxIterations)
    (hall : ∀ c ∈ chi2Trace pi inp maxIterations (initState inp), c < dblMax) :
    ((fit pi maxIterations inp).chi2 ∈ chi2Trace pi inp maxIterations (initState inp)
      ∧ ∀ c ∈ chi2Trace pi inp maxIterations (initState inp),
          (fit pi maxIterations inp).chi2 ≤ c)
    ∧ ∀ s : FitState K α,
        (stepState pi inp s).trackMomenta
          = (iterateOnce pi inp s.trackMomenta s.linPoint).phase2.map TrackPhase2.newMom
        ∧ (stepState pi inp s).linPoint
          = (iterateOnce pi inp s.trackMomenta s.linPoint).newLinPoint := by
  have hnetr : chi2Trace pi inp maxIterations (initState inp) ≠ [] := by
    intro h
    have hlen := chi2Trace_length pi inp maxIterations (initState inp)
    rw [h] at hlen
    simp at hlen
    rw [← hlen] at hpos
    exact absurd hpos (lt_irrefl 0)
  obtain ⟨c0, hc0⟩ := List.exists_mem_of_ne_nil _ hnetr
  obtain ⟨k, hk, himp2, hv, hchi⟩ :=
    fit_materialized pi inp maxIterations hne ⟨c0, hc0, hall c0 hc0⟩
  refine ⟨⟨?_, ?_⟩, fun s => ⟨rfl, rfl⟩⟩
  · rw [hchi]
    rcases foldl_min_cases (chi2Trace pi inp maxIterations (initState inp)) dblMax with h | h
    · have h1 := foldl_min_le_mem hc0 (dblMax (K := K))
      rw [h] at h1
      exact absurd (lt_of_le_of_lt h1 (hall c0 hc0)) (lt_irrefl _)
    · exact h
  · intro c hc
    rw [hchi]
    exact foldl_min_le_mem hc dblMax

/-! Congruence lemmas for a trace-zero constraint covariance. -/

theorem iterateOnce_cov_irrelevant (pi : K) (inp : FitInput K α)
    (h : inp.constraintCov.trace = 0) (momenta : List (Fin 3 → K)) (lp : Fin 3 → K) :
    iterateOnce pi inp momenta lp
      = iterateOnce pi { inp with constraintCov := 0 } momenta lp := by
  have hpt : processTrack ({ inp with constraintCov := 0 } : FitInput K α)
      = processTrack inp := rfl
  simp [iterateOnce, hpt, h, Matrix.trace_zero]

theorem ndfOf_trace_zero (n : ℕ) {ccov : Matrix (Fin 3) (Fin 3) K}
    (h : ccov.trace = 0) : ndfOf n ccov = ndfOf n (0 : Matrix (Fin 3) (Fin 3) K) := by
  simp [ndfOf, h, Matrix.trace_zero]

theorem stepState_cov_irrelevant (pi : K) (inp : FitInput K α)
    (h : inp.constraintCov.trace = 0) (s : FitState K α) :
    stepState pi inp s = stepState pi { inp with constraintCov := 0 } s := by
  simp only [stepState, iterateOnce_cov_irrelevant pi inp h, ndfOf_trace_zero _ h]

theorem runIters_cov_irrelevant (pi : K) (inp : FitInput K α)
    (h : inp.constraintCov.trace = 0) :
    ∀ (n : ℕ) (s : FitState K α),
      runIters pi inp n s = runIters pi { inp with constraintCov := 0 } n s := by
  intro n
  induction n with
  | zero => intro s; rfl
  | succ n ih =>
    intro s
    rw [runIters_succ, runIters_succ, ← stepState_cov_irrelevant pi inp h, ih]

/-- Claim C10: a supplied constraint whose covariance trace is exactly zero is
treated as no constraint: the whole fit result coincides with the run on the
zero covariance (the covariance contents never enter the normal equations,
the chi-square, or the ndf), while the constraint position still initializes
the linearization point; conversely any covariance with trace not exactly
zero adds exactly 3 to the ndf — the discriminator is the exact comparison
`trace ≠ 0`. -/
theorem constraint_trace_gate (pi : K) (maxIterations : ℕ) (inp : FitInput K α) :
    (inp.constraintCov.trace = 0 →
      fit pi maxIterations inp = fit pi maxIterations { inp with constraintCov := 0 }
      ∧ ndfOf inp.tracks.length inp.constraintCov
          = ndfOf inp.tracks.length (0 : Matrix (Fin 3) (Fin 3) K))
    ∧ (inp.constraintCov.trace ≠ 0 →
      ndfOf inp.tracks.length inp.constraintCov
        = (if inp.tracks.length < 2 then 1 else 2 * (inp.tracks.length : ℤ) - 3) + 3)
    ∧ (initState inp).linPoint = inp.constraintPos := by
  refine ⟨fun h => ⟨?_, ndfOf_trace_zero _ h⟩, fun h => ?_, rfl⟩
  · rw [fit, fit]
    rcases Nat.decEq inp.tracks.length 0 with h0 | h0
    · rw [if_neg h0, if_neg h0, runIters_cov_irrelevant pi inp h]
      rfl
    · rw [if_pos h0, if_pos h0]
  · simp [ndfOf, h]

/-- Witness for C10 at `zInpT0` (constraint covariance `diag(1, −1, 0)`,
trace exactly zero but nonzero entries): the fit coincides with the
zero-covariance run and the ndf gets no `+3`. -/
theorem constraint_trace_gate_witness :
    fit ratMPI 2 (zInpT0 (K := ℚ))
      = fit ratMPI 2 { zInpT0 (K := ℚ) with constraintCov := 0 }
    ∧ ndfOf (zInpT0 (K := ℚ)).tracks.length (zInpT0 (K := ℚ)).constraintCov
        = ndfOf (zInpT0 (K := ℚ)).tracks.length (0 : Matrix (Fin 3) (Fin 3) ℚ) :=
  (constraint_trace_gate ratMPI 2 (zInpT0 (K := ℚ))).1 trace_ccovTraceZero

/-- Claim C7: within one iteration, the total chi-square is the sum over
tracks of `(deltaQ − D·deltaV − E·deltaP)ᵗ · W · (deltaQ − D·deltaV −
E·deltaP)` where `W` is the inverse of the covariance of the linearization
performed at this iteration's (pre-update) linearization point — the weight
is frozen from before the update even though `deltaV`/`deltaP` are this
iteration's solutions — plus, when the constraint is active, the term
`(deltaV − (constraintPos − linPoint))ᵗ · constraintCov⁻¹ · (…)` with the
offset measured from the same pre-update linearization point. -/
theorem iteration_chi2_formula (pi : K) (inp : FitInput K α)
    (momenta : List (Fin 3 → K)) (lp : Fin 3 → K) :
    (iterateOnce pi inp momenta lp).newChi2
      = ((iterateOnce pi inp momenta lp).phase2.map fun p =>
          Matrix.dotProduct
            (fun i => p.bt.deltaQ i
              - (p.bt.DiMat.mulVec (iterateOnce pi inp momenta lp).deltaV) i
              - (p.bt.EiMat.mulVec p.deltaP) i)
            ((invL p.bt.linTrack.covarianceAtPCA).mulVec
              (fun i => p.bt.deltaQ i
                - (p.bt.DiMat.mulVec (iterateOnce pi inp momenta lp).deltaV) i
                - (p.bt.EiMat.mulVec p.deltaP) i))).sum
        + (if inp.constraintCov.trace ≠ 0 then
            Matrix.dotProduct
              (fun i => (iterateOnce pi inp momenta lp).deltaV i
                - (inp.constraintPos i - lp i))
              ((invL inp.constraintCov).mulVec
                (fun i => (iterateOnce pi inp momenta lp).deltaV i
                  - (inp.constraintPos i - lp i)))
          else 0)
    ∧ ∀ p ∈ (iterateOnce pi inp momenta lp).phase2,
        p.bt.linTrack = inp.linearize (inp.extract p.bt.originalTrack) lp := by
  constructor
  · simp only [iterateOnce]
    split_ifs with hct
    · rw [foldl_add_eq_sum TrackPhase2.chi2, zero_add]
      congr 1
      congr 1
      apply List.map_congr_left
      intro p hp
      obtain ⟨q, hq, rfl⟩ := List.mem_map.1 hp
      rfl
    · rw [foldl_add_eq_sum TrackPhase2.chi2, zero_add, add_zero]
      congr 1
      apply List.map_congr_left
      intro p hp
      obtain ⟨q, hq, rfl⟩ := List.mem_map.1 hp
      rfl
  · intro p hp
    simp only [iterateOnce] at hp
    obtain ⟨q, hq, rfl⟩ := List.mem_map.1 hp
    obtain ⟨r, hr, hq1⟩ := List.mem_map.1 (List.of_mem_zip hq).1
    show q.1.linTrack = inp.linearize (inp.extract q.1.originalTrack) lp
    rw [← hq1]
    rfl

/-- Witness for C7: the chi-square decomposition instantiated on the concrete
iteration of `zInp` at the zero state. -/
theorem iteration_chi2_formula_witness :
    (iterateOnce ratMPI (zInp (K := ℚ)) [0, 0] 0).newChi2
      = ((iterateOnce ratMPI (zInp (K := ℚ)) [0, 0] 0).phase2.map fun p =>
          Matrix.dotProduct
            (fun i => p.bt.deltaQ i
              - (p.bt.DiMat.mulVec (iterateOnce ratMPI (zInp (K := ℚ)) [0, 0] 0).deltaV) i
              - (p.bt.EiMat.mulVec p.deltaP) i)
            ((invL p.bt.linTrack.covarianceAtPCA).mulVec
              (fun i => p.bt.deltaQ i
                - (p.bt.DiMat.mulVec (iterateOnce ratMPI (zInp (K := ℚ)) [0, 0] 0).deltaV) i
                - (p.bt.EiMat.mulVec p.deltaP) i))).sum
        + (if (zInp (K := ℚ)).constraintCov.trace ≠ 0 then
            Matrix.dotProduct
              (fun i => (iterateOnce ratMPI (zInp (K := ℚ)) [0, 0] 0).deltaV i
                - ((zInp (K := ℚ)).constraintPos i - (0 : Fin 3 → ℚ) i))
              ((invL (zInp (K := ℚ)).constraintCov).mulVec
                (fun i => (iterateOnce ratMPI (zInp (K := ℚ)) [0, 0] 0).deltaV i
                  - ((zInp (K := ℚ)).constraintPos i - (0 : Fin 3 → ℚ) i)))
          else 0) :=
  (iteration_chi2_formula ratMPI (zInp (K := ℚ)) [0, 0] 0).1

/-! Helper lemmas for the per-track refit list. -/

theorem iterateOnce_phase2_length (pi : K) (inp : FitInput K α)
    (momenta : List (Fin 3 → K)) (lp : Fin 3 → K) :
    (iterateOnce pi inp momenta lp).phase2.length
      = min inp.tracks.length momenta.length := by
  simp only [iterateOnce, List.length_map, List.length_zip]
  omega

theorem initState_momenta_length (inp : FitInput K α) :
    (initState inp).trackMomenta.length = inp.tracks.length := by
  simp [initState]

theorem runIters_momenta_length (pi : K) (inp : FitInput K α) :
    ∀ (n : ℕ) (s : FitState K α), s.trackMomenta.length = inp.tracks.length →
      (runIters pi inp n s).trackMomenta.length = inp.tracks.length := by
  intro n
  induction n with
  | zero => intro s h; exact h
  | succ n ih =>
    intro s h
    rw [runIters_succ]
    apply ih
    rw [stepState_trackMomenta, List.length_map, iterateOnce_phase2_length, h, min_self]

theorem iterateOnce_phase2_get (pi : K) (inp : FitInput K α)
    (momenta : List (Fin 3 → K)) (lp : Fin 3 → K) (i : ℕ)
    (h3 : i < (iterateOnce pi inp momenta lp).phase2.length) :
    ∃ (ht : i < inp.tracks.length) (hm : i < momenta.length),
      (iterateOnce pi inp momenta lp).phase2.get ⟨i, h3⟩
        = processPhase2 pi (iterateOnce pi inp momenta lp).deltaV
            (iterateOnce pi inp momenta lp).covDeltaV (momenta.get ⟨i, hm⟩)
            (processTrack inp lp (momenta.get ⟨i, hm⟩) (inp.tracks.get ⟨i, ht⟩)) := by
  have hlen := iterateOnce_phase2_length pi inp momenta lp
  have hmin : i < min inp.tracks.length momenta.length := hlen ▸ h3
  refine ⟨lt_of_lt_of_le hmin (min_le_left _ _), lt_of_lt_of_le hmin (min_le_right _ _), ?_⟩
  simp [iterateOnce, List.get_eq_getElem, List.getElem_map, List.getElem_zip]

theorem materializeVertex_get? (ndf : ℤ) (r : IterResult K α) (i : ℕ)
    (h3 : i < r.phase2.length) :
    (materializeVertex ndf r).tracksAtVertex.get? i
      = some { chi2 := (r.phase2.get ⟨i, h3⟩).chi2
               paramVec := ![0, 0, (r.phase2.get ⟨i, h3⟩).newMom 0,
                 (r.phase2.get ⟨i, h3⟩).newMom 1, (r.phase2.get ⟨i, h3⟩).newMom 2]
               covDeltaP := (r.phase2.get ⟨i, h3⟩).covDeltaP
               surfaceCenter := r.newLinPoint
               originalTrack := (r.phase2.get ⟨i, h3⟩).bt.originalTrack } := by
  show (r.phase2.map _).get? i = _
  rw [List.get?_map, List.get?_eq_get h3]
  rfl

/-! Interval and periodicity lemmas for the angle normalization. -/

theorem fmod_bounds {x y : K} (hy : 0 < y) : -y < fmod x y ∧ fmod x y < y := by
  rcases le_or_lt 0 x with hx | hx
  · have h := fmod_bounds_nonneg hy hx
    exact ⟨lt_of_lt_of_le (neg_lt_zero.2 hy) h.1, h.2⟩
  · have h := fmod_bounds_neg hy hx
    exact ⟨h.1, lt_of_le_of_lt h.2 hy⟩

theorem wrapPhi_bounds {pi : K} (hpi : 0 < pi) (x : K) :
    -pi ≤ wrapPhi pi x ∧ wrapPhi pi x ≤ pi := by
  have hb : -(2 * pi) < fmod x (2 * pi) ∧ fmod x (2 * pi) < 2 * pi :=
    fmod_bounds (mul_pos two_pos hpi)
  simp only [wrapPhi]
  split_ifs with h2 h1 h1
  · constructor <;> linarith [h1.1]
  · constructor <;> linarith [hb.2]
  · constructor <;> linarith [h1.1, h1.2]
  · push_neg at h1
    rcases lt_or_le (fmod x (2 * pi)) (-pi) with h | h
    · have := h1 h
      constructor <;> linarith [hb.1]
    · constructor <;> linarith [not_lt.1 h2]

theorem rewrapPhi_bounds {pi p : K} (hpi : 0 < pi) (hp0 : 0 ≤ p)
    (hp2 : p ≤ 2 * pi) : -pi ≤ rewrapPhi pi p ∧ rewrapPhi pi p ≤ pi := by
  simp only [rewrapPhi]
  split_ifs with h
  · constructor <;> linarith
  · constructor <;> linarith [not_lt.1 h]

theorem cos_fmod_two_pi (x : ℝ) :
    Real.cos (fmod x (2 * Real.pi)) = Real.cos x := by
  rw [fmod, show x - 2 * Real.pi * ((rtrunc (x / (2 * Real.pi)) : ℤ) : ℝ)
    = x - ((rtrunc (x / (2 * Real.pi)) : ℤ) : ℝ) * (2 * Real.pi) from by ring,
    Real.cos_sub_int_mul_two_pi]

theorem sin_fmod_two_pi (x : ℝ) :
    Real.sin (fmod x (2 * Real.pi)) = Real.sin x := by
  rw [fmod, show x - 2 * Real.pi * ((rtrunc (x / (2 * Real.pi)) : ℤ) : ℝ)
    = x - ((rtrunc (x / (2 * Real.pi)) : ℤ) : ℝ) * (2 * Real.pi) from by ring,
    Real.sin_sub_int_mul_two_pi]

theorem wrapPhi_cos (x : ℝ) : Real.cos (wrapPhi Real.pi x) = Real.cos x := by
  simp only [wrapPhi]
  split_ifs <;>
    simp [Real.cos_add_two_pi, Real.cos_sub_two_pi, cos_fmod_two_pi]

theorem wrapPhi_sin (x : ℝ) : Real.sin (wrapPhi Real.pi x) = Real.sin x := by
  simp only [wrapPhi]
  split_ifs <;>
    simp [Real.sin_add_two_pi, Real.sin_sub_two_pi, sin_fmod_two_pi]

theorem rewrapPhi_cos (p : ℝ) : Real.cos (rewrapPhi Real.pi p) = Real.cos p := by
  simp only [rewrapPhi]
  split_ifs <;> simp [Real.cos_sub_two_pi]

theorem rewrapPhi_sin (p : ℝ) : Real.sin (rewrapPhi Real.pi p) = Real.sin p := by
  simp only [rewrapPhi]
  split_ifs <;> simp [Real.sin_sub_two_pi]

/-- Counterexample for C3: at a post-update azimuth of exactly `−π` (polar
angle `π/2`, so no polar branch fires), the stored azimuth after
normalization is `−π` itself, which does NOT lie in the half-open interval
`(−π, π]` the claim asserts: the wrap maps into the closed interval
`[−π, π]` and the lower endpoint is attained. -/
theorem angle_wrap_counterexample :
    (normalizeAngles Real.pi (-Real.pi) (Real.pi / 2)).1 = -Real.pi
    ∧ (normalizeAngles Real.pi (-Real.pi) (Real.pi / 2)).1
        ∉ Set.Ioc (-Real.pi) Real.pi := by
  have hpi := Real.pi_pos
  have hq1 : (-Real.pi) / (2 * Real.pi) = -(1 / 2 : ℝ) := by
    rw [div_eq_iff (by positivity)]
    ring
  have hr1 : rtrunc ((-Real.pi) / (2 * Real.pi)) = 0 := by
    rw [hq1, rtrunc, if_neg (by norm_num)]
    norm_num
  have hf1 : fmod (-Real.pi) (2 * Real.pi) = -Real.pi := by
    rw [fmod, hr1]
    push_cast
    ring
  have hq2 : (Real.pi / 2) / (2 * Real.pi) = (1 / 4 : ℝ) := by
    rw [div_eq_iff (by positivity)]
    ring
  have hr2 : rtrunc ((Real.pi / 2) / (2 * Real.pi)) = 0 := by
    rw [hq2, rtrunc, if_pos (by norm_num)]
    norm_num
  have hf2 : fmod (Real.pi / 2) (2 * Real.pi) = Real.pi / 2 := by
    rw [fmod, hr2]
    push_cast
    ring
  have hw : wrapPhi Real.pi (-Real.pi) = -Real.pi := by
    simp only [wrapPhi, hf1]
    rw [if_neg (show ¬ Real.pi < -Real.pi by linarith),
      if_neg (show ¬ (-Real.pi < -Real.pi ∧ -(2 * Real.pi) < -Real.pi) from
        fun h => absurd h.1 (lt_irrefl _))]
  have hval : normalizeAngles Real.pi (-Real.pi) (Real.pi / 2)
      = (-Real.pi, Real.pi / 2) := by
    simp only [normalizeAngles, hw, hf2]
    rw [if_neg (show ¬ Real.pi / 2 < -Real.pi by linarith),
      if_neg (show ¬ Real.pi / 2 < 0 by linarith),
      show ((-Real.pi, Real.pi / 2) : ℝ × ℝ).2 = Real.pi / 2 from rfl,
      if_neg (show ¬ Real.pi < Real.pi / 2 by linarith)]
  refine ⟨by rw [hval], ?_⟩
  rw [hval]
  rw [Set.mem_Ioc]
  intro hmem
  exact absurd hmem.1 (lt_irrefl _)

/-- Claim C3 (amended): after every per-track momentum update the stored
azimuth lies in the CLOSED interval `[−π, π]` (the endpoint `−π` is
attainable, see the counterexample) and the stored polar angle lies in
`[0, π]`, and — with the mathematical `π`, the idealization of the double
constant `M_PI` — the physical direction reconstructed from (azimuth, polar
angle) is unchanged: all three direction components
`(cos φ · sin θ, sin φ · sin θ, cos θ)` are preserved, and the
charge-over-momentum component is untouched by the wrap (the normalization
applied to every updated momentum, as `processPhase2` does, keeps the third
component as updated). -/
theorem angle_normalization_amended (phi theta : ℝ) :
    (-Real.pi ≤ (normalizeAngles Real.pi phi theta).1
      ∧ (normalizeAngles Real.pi phi theta).1 ≤ Real.pi)
    ∧ (0 ≤ (normalizeAngles Real.pi phi theta).2
      ∧ (normalizeAngles Real.pi phi theta).2 ≤ Real.pi)
    ∧ Real.cos (normalizeAngles Real.pi phi theta).1
        * Real.sin (normalizeAngles Real.pi phi theta).2
      = Real.cos phi * Real.sin theta
    ∧ Real.sin (normalizeAngles Real.pi phi theta).1
        * Real.sin (normalizeAngles Real.pi phi theta).2
      = Real.sin phi * Real.sin theta
    ∧ Real.cos (normalizeAngles Real.pi phi theta).2 = Real.cos theta
    ∧ ∀ (dV : Fin 3 → ℝ) (cV : Matrix (Fin 3) (Fin 3) ℝ) (mom : Fin 3 → ℝ)
        (bt : BilloirTrackData ℝ Unit),
        (processPhase2 Real.pi dV cV mom bt).newMom 2
          = mom 2 + (processPhase2 Real.pi dV cV mom bt).deltaP 2 := by
  have hpi := Real.pi_pos
  have h2pi : (0 : ℝ) < 2 * Real.pi := by linarith
  have hb : -(2 * Real.pi) < fmod theta (2 * Real.pi)
      ∧ fmod theta (2 * Real.pi) < 2 * Real.pi := fmod_bounds h2pi
  have hw := wrapPhi_bounds hpi phi
  have hwc := wrapPhi_cos phi
  have hws := wrapPhi_sin phi
  have hbc := cos_fmod_two_pi theta
  have hbs := sin_fmod_two_pi theta
  have hlast : ∀ (dV : Fin 3 → ℝ) (cV : Matrix (Fin 3) (Fin 3) ℝ)
      (mom : Fin 3 → ℝ) (bt : BilloirTrackData ℝ Unit),
      (processPhase2 Real.pi dV cV mom bt).newMom 2
        = mom 2 + (processPhase2 Real.pi dV cV mom bt).deltaP 2 :=
    fun _ _ _ _ => rfl
  rcases lt_or_le (fmod theta (2 * Real.pi)) (-Real.pi) with hc3 | hc3
  · have habs : |fmod theta (2 * Real.pi) + 2 * Real.pi|
        = fmod theta (2 * Real.pi) + 2 * Real.pi := abs_of_pos (by linarith [hb.1])
    have hval : normalizeAngles Real.pi phi theta
        = (wrapPhi Real.pi phi, fmod theta (2 * Real.pi) + 2 * Real.pi) := by
      simp only [normalizeAngles]
      rw [if_pos hc3, habs,
        show ((wrapPhi Real.pi phi, fmod theta (2 * Real.pi) + 2 * Real.pi) : ℝ × ℝ).2
          = fmod theta (2 * Real.pi) + 2 * Real.pi from rfl,
        if_neg (show ¬ Real.pi < fmod theta (2 * Real.pi) + 2 * Real.pi by linarith)]
    rw [hval]
    dsimp only
    refine ⟨⟨hw.1, hw.2⟩, ⟨by linarith [hb.1], by linarith⟩, ?_, ?_, ?_, hlast⟩
    · show Real.cos (wrapPhi Real.pi phi)
        * Real.sin (fmod theta (2 * Real.pi) + 2 * Real.pi) = _
      rw [Real.sin_add_two_pi, hwc, hbs]
    · show Real.sin (wrapPhi Real.pi phi)
        * Real.sin (fmod theta (2 * Real.pi) + 2 * Real.pi) = _
      rw [Real.sin_add_two_pi, hws, hbs]
    · show Real.cos (fmod theta (2 * Real.pi) + 2 * Real.pi) = _
      rw [Real.cos_add_two_pi, hbc]
  · rcases lt_or_le (fmod theta (2 * Real.pi)) 0 with hc4 | hc4
    · have hval : normalizeAngles Real.pi phi theta
          = (rewrapPhi Real.pi (wrapPhi Real.pi phi + Real.pi),
             -fmod theta (2 * Real.pi)) := by
        simp only [normalizeAngles]
        rw [if_neg (not_lt.2 hc3), if_pos hc4,
          show ((rewrapPhi Real.pi (wrapPhi Real.pi phi + Real.pi),
            -fmod theta (2 * Real.pi)) : ℝ × ℝ).2 = -fmod theta (2 * Real.pi) from rfl,
          if_neg (show ¬ Real.pi < -fmod theta (2 * Real.pi) by linarith)]
      have hrw := rewrapPhi_bounds hpi
        (show (0 : ℝ) ≤ wrapPhi Real.pi phi + Real.pi by linarith [hw.1])
        (show wrapPhi Real.pi phi + Real.pi ≤ 2 * Real.pi by linarith [hw.2])
      rw [hval]
      dsimp only
      refine ⟨⟨hrw.1, hrw.2⟩, ⟨by linarith, by linarith⟩, ?_, ?_, ?_, hlast⟩
      · show Real.cos (rewrapPhi Real.pi (wrapPhi Real.pi phi + Real.pi))
          * Real.sin (-fmod theta (2 * Real.pi)) = _
        rw [rewrapPhi_cos, Real.cos_add_pi, Real.sin_neg, hwc, hbs]
        ring
      · show Real.sin (rewrapPhi Real.pi (wrapPhi Real.pi phi + Real.pi))
          * Real.sin (-fmod theta (2 * Real.pi)) = _
        rw [rewrapPhi_sin, Real.sin_add_pi, Real.sin_neg, hws, hbs]
        ring
      · show Real.cos (-fmod theta (2 * Real.pi)) = _
        rw [Real.cos_neg, hbc]
    · rcases lt_or_le Real.pi (fmod theta (2 * Real.pi)) with hc6 | hc6
      · have hval : normalizeAngles Real.pi phi theta
            = (rewrapPhi Real.pi (wrapPhi Real.pi phi + Real.pi),
               2 * Real.pi - fmod theta (2 * Real.pi)) := by
          simp only [normalizeAngles]
          rw [if_neg (not_lt.2 hc3), if_neg (not_lt.2 hc4),
            show ((wrapPhi Real.pi phi, fmod theta (2 * Real.pi)) : ℝ × ℝ).2
              = fmod theta (2 * Real.pi) from rfl,
            if_pos hc6]
        have hrw := rewrapPhi_bounds hpi
          (show (0 : ℝ) ≤ wrapPhi Real.pi phi + Real.pi by linarith [hw.1])
          (show wrapPhi Real.pi phi + Real.pi ≤ 2 * Real.pi by linarith [hw.2])
        rw [hval]
        dsimp only
        refine ⟨⟨hrw.1, hrw.2⟩, ⟨by linarith [hb.2], by linarith⟩, ?_, ?_, ?_, hlast⟩
        · show Real.cos (rewrapPhi Real.pi (wrapPhi Real.pi phi + Real.pi))
            * Real.sin (2 * Real.pi - fmod theta (2 * Real.pi)) = _
          rw [rewrapPhi_cos, Real.cos_add_pi, Real.sin_two_pi_sub, hwc, hbs]
          ring
        · show Real.sin (rewrapPhi Real.pi (wrapPhi Real.pi phi + Real.pi))
            * Real.sin (2 * Real.pi - fmod theta (2 * Real.pi)) = _
          rw [rewrapPhi_sin, Real.sin_add_pi, Real.sin_two_pi_sub, hws, hbs]
          ring
        · show Real.cos (2 * Real.pi - fmod theta (2 * Real.pi)) = _
          rw [Real.cos_two_pi_sub, hbc]
      · have hval : normalizeAngles Real.pi phi theta
            = (wrapPhi Real.pi phi, fmod theta (2 * Real.pi)) := by
          simp only [normalizeAngles]
          rw [if_neg (not_lt.2 hc3), if_neg (not_lt.2 hc4),
            show ((wrapPhi Real.pi phi, fmod theta (2 * Real.pi)) : ℝ × ℝ).2
              = fmod theta (2 * Real.pi) from rfl,
            if_neg (not_lt.2 hc6)]
        rw [hval]
        dsimp only
        refine ⟨⟨hw.1, hw.2⟩, ⟨hc4, hc6⟩, ?_, ?_, ?_, hlast⟩
        · show Real.cos (wrapPhi Real.pi phi)
            * Real.sin (fmod theta (2 * Real.pi)) = _
          rw [hwc, hbs]
        · show Real.sin (wrapPhi Real.pi phi)
            * Real.sin (fmod theta (2 * Real.pi)) = _
          rw [hws, hbs]
        · exact hbc

/-- Claim C9: once a vertex is materialized (here: some iteration improves on
the `DBL_MAX` sentinel), the returned vertex comes from the materializing
iteration — the one whose chi-square bounds the whole trace from below — and
its refit list has exactly one entry per input track, in input order: the
`i`-th entry references the `i`-th original track, carries that track's
chi-square contribution from the materializing iteration, and its refitted
parameters have both local transverse offsets exactly zero on a perigee
surface centered at the fitted position. -/
theorem refit_list_structure (pi : K) (inp : FitInput K α) (maxIterations : ℕ)
    (hne : inp.tracks ≠ [])
    (himp : ∃ c ∈ chi2Trace pi inp maxIterations (initState inp), c < dblMax) :
    (fit pi maxIterations inp).tracksAtVertex.length = inp.tracks.length
    ∧ ∃ k, k < maxIterations
      ∧ fit pi maxIterations inp
          = materializeVertex (ndfOf inp.tracks.length inp.constraintCov)
              (iterateOnce pi inp (runIters pi inp k (initState inp)).trackMomenta
                (runIters pi inp k (initState inp)).linPoint)
      ∧ (∀ c ∈ chi2Trace pi inp maxIterations (initState inp),
          (fit pi maxIterations inp).chi2 ≤ c)
      ∧ ∀ i, i < inp.tracks.length →
          ∃ e t p,
            (fit pi maxIterations inp).tracksAtVertex.get? i = some e
            ∧ inp.tracks.get? i = some t
            ∧ (iterateOnce pi inp (runIters pi inp k (initState inp)).trackMomenta
                (runIters pi inp k (initState inp)).linPoint).phase2.get? i = some p
            ∧ e.originalTrack = t
            ∧ e.chi2 = p.chi2
            ∧ e.paramVec 0 = 0
            ∧ e.paramVec 1 = 0
            ∧ e.surfaceCenter = (fit pi maxIterations inp).position := by
  obtain ⟨k, hk, himp2, hv, hchi⟩ := fit_materialized pi inp maxIterations hne himp
  have hsklen : (runIters pi inp k (initState inp)).trackMomenta.length
      = inp.tracks.length :=
    runIters_momenta_length pi inp k _ (initState_momenta_length inp)
  have hplen : (iterateOnce pi inp (runIters pi inp k (initState inp)).trackMomenta
      (runIters pi inp k (initState inp)).linPoint).phase2.length = inp.tracks.length := by
    rw [iterateOnce_phase2_length, hsklen, min_self]
  have hlen : (fit pi maxIterations inp).tracksAtVertex.length = inp.tracks.length := by
    rw [hv]
    show ((iterateOnce pi inp (runIters pi inp k (initState inp)).trackMomenta
      (runIters pi inp k (initState inp)).linPoint).phase2.map _).length = _
    rw [List.length_map, hplen]
  refine ⟨hlen, k, hk, hv, fun c hc => ?_, fun i hi => ?_⟩
  · rw [hchi]
    exact foldl_min_le_mem hc dblMax
  · have h3 : i < (iterateOnce pi inp (runIters pi inp k (initState inp)).trackMomenta
        (runIters pi inp k (initState inp)).linPoint).phase2.length := by
      rw [hplen]; exact hi
    have hget := materializeVertex_get? (ndfOf inp.tracks.length inp.constraintCov)
      (iterateOnce pi inp (runIters pi inp k (initState inp)).trackMomenta
        (runIters pi inp k (initState inp)).linPoint) i h3
    obtain ⟨ht2, hm2, hpp⟩ := iterateOnce_phase2_get pi inp
      (runIters pi inp k (initState inp)).trackMomenta
      (runIters pi inp k (initState inp)).linPoint i h3
    refine ⟨{ chi2 := ((iterateOnce pi inp (runIters pi inp k (initState inp)).trackMomenta
                (runIters pi inp k (initState inp)).linPoint).phase2.get ⟨i, h3⟩).chi2
              paramVec := ![0, 0,
                ((iterateOnce pi inp (runIters pi inp k (initState inp)).trackMomenta
                  (runIters pi inp k (initState inp)).linPoint).phase2.get ⟨i, h3⟩).newMom 0,
                ((iterateOnce pi inp (runIters pi inp k (initState inp)).trackMomenta
                  (runIters pi inp k (initState inp)).linPoint).phase2.get ⟨i, h3⟩).newMom 1,
                ((iterateOnce pi inp (runIters pi inp k (initState inp)).trackMomenta
                  (runIters pi inp k (initState inp)).linPoint).phase2.get ⟨i, h3⟩).newMom 2]
              covDeltaP := ((iterateOnce pi inp (runIters pi inp k (initState inp)).trackMomenta
                (runIters pi inp k (initState inp)).linPoint).phase2.get ⟨i, h3⟩).covDeltaP
              surfaceCenter := (iterateOnce pi inp
                (runIters pi inp k (initState inp)).trackMomenta
                (runIters pi inp k (initState inp)).linPoint).newLinPoint
              originalTrack := ((iterateOnce pi inp
                (runIters pi inp k (initState inp)).trackMomenta
                (runIters pi inp k (initState inp)).linPoint).phase2.get ⟨i, h3⟩).bt.originalTrack },
      inp.tracks.get ⟨i, hi⟩,
      (iterateOnce pi inp (runIters pi inp k (initState inp)).trackMomenta
        (runIters pi inp k (initState inp)).linPoint).phase2.get ⟨i, h3⟩,
      ?_, List.get?_eq_get hi, List.get?_eq_get h3, ?_, ?_, ?_, ?_, ?_⟩
    · rw [hv]
      exact hget
    · show ((iterateOnce pi inp (runIters pi inp k (initState inp)).trackMomenta
        (runIters pi inp k (initState inp)).linPoint).phase2.get ⟨i, h3⟩).bt.originalTrack
        = inp.tracks.get ⟨i, hi⟩
      rw [hpp]
      rfl
    · rfl
    · rfl
    · rfl
    · show (iterateOnce pi inp (runIters pi inp k (initState inp)).trackMomenta
        (runIters pi inp k (initState inp)).linPoint).newLinPoint
        = (fit pi maxIterations inp).position
      rw [hv]
      rfl

/-- Witness for C9 at the concrete input `zInp`: the materialized vertex
carries exactly one refit entry per input track. -/
theorem refit_list_structure_witness :
    (fit ratMPI 2 (zInp (K := ℚ))).tracksAtVertex.length
      = (zInp (K := ℚ)).tracks.length :=
  (refit_list_structure ratMPI zInp 2 (by simp [zInp])
    (by
      rw [(zFit ratMPI (by norm_num [ratMPI])).1]
      exact ⟨0, by simp, dblMax_pos⟩)).1

/-- Claim C2: the source performs no singularity check whatsoever.  On the
concrete input `zInp` the per-track matrix `G = EᵀWE` is the zero matrix —
its determinant is `0`, so the `CiInv` the code computes cannot be (and is
not) an inverse of it — yet `fit` does not fail: the call completes and
returns a fully materialized vertex with both per-track refit entries.  (The
claimed `SingularMatrix` error and error return path do not exist in this
version of the code: `fit` returns `Vertex` unconditionally.) -/
theorem no_singularity_check :
    detL (processTrack (zInp (K := ℚ)) 0 0 ()).GiMat = 0
    ∧ (processTrack (zInp (K := ℚ)) 0 0 ()).CiInv
        * (processTrack (zInp (K := ℚ)) 0 0 ()).GiMat ≠ 1
    ∧ (fit ratMPI 2 (zInp (K := ℚ))).tracksAtVertex.length = 2 := by
  have h := processTrack_z (K := ℚ) 0 0
  refine ⟨?_, ?_, ?_⟩
  · rw [h.1]
    exact detL_zeroMat 2
  · rw [h.1, h.2, Matrix.mul_zero]
    intro heq
    have h00 := congrFun (congrFun heq 0) 0
    simp [Matrix.one_apply] at h00
  · exact (zFit ratMPI (by norm_num [ratMPI])).2.2.2

/-- Counterexample for C8: the claim enumerates the nonzero entries of the
5×6 transformation as the Jacobian 2×2 corner plus THREE fixed 1-entries for
the momentum parameters, but the source also sets `transMat(1, 2) = 1` (the
longitudinal impact parameter picks up the `z` coordinate directly): at the
zero Jacobian, the source's matrix has a 1 at `(1, 2)` where the
spec-described matrix has 0, so the two differ. -/
theorem transMat_spec_counterexample :
    transMatOf (0 : Matrix (Fin 5) (Fin 3) ℚ) 1 2 = 1
    ∧ specTransMat (0 : Matrix (Fin 5) (Fin 3) ℚ) 1 2 = 0
    ∧ transMatOf (0 : Matrix (Fin 5) (Fin 3) ℚ)
        ≠ specTransMat (0 : Matrix (Fin 5) (Fin 3) ℚ) := by
  refine ⟨rfl, rfl, ?_⟩
  intro heq
  have h12 := congrFun (congrFun heq 1) 2
  rw [show transMatOf (0 : Matrix (Fin 5) (Fin 3) ℚ) 1 2 = 1 from rfl,
    show specTransMat (0 : Matrix (Fin 5) (Fin 3) ℚ) 1 2 = 0 from rfl] at h12
  exact one_ne_zero h12

/-- Claim C8 (amended): the per-track refit covariance is
`transMat · covMat6 · transMatᵀ`, where `covMat6` is the 6×6 block matrix
with position block the position-update covariance, cross block
`−covDeltaV·G·C⁻¹` (and its transpose), and momentum block
`C⁻¹ + BCᵀ·covDeltaV·BC`; the 5×6 `transMat` has exactly the 2×2 corner of
the position Jacobian and FOUR fixed 1-entries — `(1,2)` mapping the `z`
coordinate into the longitudinal impact parameter and `(2,3)`, `(3,4)`,
`(4,5)` passing the momentum parameters through — and every other entry
zero. -/
theorem covDeltaP_block_structure (Dmat : Matrix (Fin 5) (Fin 3) K)
    (bt : BilloirTrackData K α) (covDeltaV : Matrix (Fin 3) (Fin 3) K) :
    (∀ i j, transMatOf Dmat i j
      = if i = 0 ∧ j = 0 then Dmat 0 0
        else if i = 0 ∧ j = 1 then Dmat 0 1
        else if i = 1 ∧ j = 0 then Dmat 1 0
        else if i = 1 ∧ j = 1 then Dmat 1 1
        else if (i = 1 ∧ j = 2) ∨ (i = 2 ∧ j = 3) ∨ (i = 3 ∧ j = 4) ∨ (i = 4 ∧ j = 5)
        then 1 else 0)
    ∧ covDeltaPOf bt covDeltaV
        = transMatOf bt.DiMat
          * covMat6 covDeltaV (-(covDeltaV * bt.GiMat * bt.CiInv))
              (bt.CiInv + bt.BCiMat.transpose * covDeltaV * bt.BCiMat)
          * (transMatOf bt.DiMat).transpose
    ∧ (∀ VVmat VPmat PPmat : Matrix (Fin 3) (Fin 3) K, ∀ a b : Fin 3,
        covMat6 VVmat VPmat PPmat ((@finSumFinEquiv 3 3) (Sum.inl a)) ((@finSumFinEquiv 3 3) (Sum.inl b))
          = VVmat a b
        ∧ covMat6 VVmat VPmat PPmat ((@finSumFinEquiv 3 3) (Sum.inl a)) ((@finSumFinEquiv 3 3) (Sum.inr b))
          = VPmat a b
        ∧ covMat6 VVmat VPmat PPmat ((@finSumFinEquiv 3 3) (Sum.inr a)) ((@finSumFinEquiv 3 3) (Sum.inl b))
          = VPmat b a
        ∧ covMat6 VVmat VPmat PPmat ((@finSumFinEquiv 3 3) (Sum.inr a)) ((@finSumFinEquiv 3 3) (Sum.inr b))
          = PPmat a b) := by
  refine ⟨?_, rfl, ?_⟩
  · intro i j
    fin_cases i <;> fin_cases j <;> rfl
  · intro VVmat VPmat PPmat a b
    refine ⟨?_, ?_, ?_, ?_⟩ <;>
      simp [covMat6, Matrix.reindex_apply, Matrix.submatrix_apply,
        Equiv.symm_apply_apply, Matrix.fromBlocks_apply₁₁, Matrix.fromBlocks_apply₁₂,
        Matrix.fromBlocks_apply₂₁, Matrix.fromBlocks_apply₂₂, Matrix.transpose_apply]

/-- Witness for C1 at the concrete input `zInp`: the returned chi-square is a
member of the chi-square trace. -/
theorem keepBest_policy_witness :
    (fit ratMPI 2 (zInp (K := ℚ))).chi2
      ∈ chi2Trace ratMPI (zInp (K := ℚ)) 2 (initState zInp) :=
  (keepBest_policy ratMPI zInp 2 (by simp [zInp]) (by norm_num)
    (by
      rw [(zFit ratMPI (by norm_num [ratMPI])).1]
      intro c hc
      simp at hc
      rw [hc]
      exact dblMax_pos)).1.1

end Billoir
